import Mathlib

/-!
Shallow embedding of the custom allocator core of NekoRollbackSummative
(src/core/include/engine/custom_allocator.h).

Machine model: every size_t / pointer value is a natural number below
W = 2^64; each C++ arithmetic step that can wrap is written with an
explicit reduction modulo W, matching 64-bit unsigned arithmetic.
A failing neko_assert is modelled as returning an error from the
taxonomy of the specification (Except AllocError).
-/

/-- Modulus of 64-bit unsigned (size_t / pointer) arithmetic. -/
def W : Nat := 2 ^ 64

/-- sizeof(void*) on the 64-bit target the code assumes
(it casts pointers to std::uint64_t). -/
def sizeofVoidPtr : Nat := 8

/-- Error taxonomy of the specification; each neko_assert of the source
is mapped to the corresponding error value. -/
inductive AllocError where
  | OutOfMemory
  | InvalidAlignment
  | OrderingViolation
  | SizeMismatch
  | UnsupportedOperation
  | LeakAtTeardown
deriving DecidableEq

/-- Allocator::CalculateAlignForwardAdjustment (custom_allocator.h lines 31-39).
The power-of-two assert is the bit test (alignment & (alignment - 1)) == 0;
alignment - 1 and the subtraction alignment - (address & (alignment - 1))
are size_t operations, hence the explicit + W ... % W. -/
def CalculateAlignForwardAdjustment (address alignment : Nat) : Except AllocError Nat :=
  let am1 := (alignment + W - 1) % W
  if alignment &&& am1 ≠ 0 then .error .InvalidAlignment
  else
    let adjustment := (alignment + W - (address &&& am1)) % W
    if adjustment = alignment then .ok 0 else .ok adjustment

/-- Allocator::CalculateAlignForwardAdjustmentWithHeader (lines 41-53).
neededSpace -= adjustment and the two adjustment increments are size_t
operations. -/
def CalculateAlignForwardAdjustmentWithHeader
    (address alignment headerSize : Nat) : Except AllocError Nat := do
  let adjustment ← CalculateAlignForwardAdjustment address alignment
  let neededSpace := headerSize
  if adjustment < neededSpace then
    let neededSpace := (neededSpace + W - adjustment) % W
    let adjustment := (adjustment + alignment * (neededSpace / alignment)) % W
    let adjustment :=
      if neededSpace % alignment > 0 then (adjustment + alignment) % W else adjustment
    return adjustment
  else
    return adjustment

/-- Allocator::AlignForward (lines 55-58): (uint64)address + adjustment. -/
def AlignForward (address alignment : Nat) : Except AllocError Nat := do
  let adjustment ← CalculateAlignForwardAdjustment address alignment
  return (address + adjustment) % W

/-- Allocator::AlignForwardWithHeader (lines 60-64). -/
def AlignForwardWithHeader (address alignment headerSize : Nat) : Except AllocError Nat := do
  let adjustment ← CalculateAlignForwardAdjustmentWithHeader address alignment headerSize
  return (address + adjustment) % W

/-- Mathematical closed form of the forward-alignment adjustment for a
power-of-two alignment: the distance from address up to the next multiple
of the alignment. -/
def alignAdj (address alignment : Nat) : Nat :=
  (alignment - address % alignment) % alignment

/-- Allocator::~Allocator (lines 20-25): the destructor asserts
numAllocations_ == 0 && usedMemory_ == 0 before tearing down;
a failing assert is the LeakAtTeardown error of the taxonomy. -/
def destroyAllocator (numAllocations usedMemory : Nat) : Except AllocError Unit :=
  if numAllocations = 0 ∧ usedMemory = 0 then .ok () else .error .LeakAtTeardown

/-- State of a PoolAllocator over its arena: the base Allocator fields
start_ / size_ / usedMemory_ / numAllocations_ plus the intrusive free
list freeBlocks_, represented by the list of slot addresses in traversal
order (head = freeBlocks_, next links = tail). -/
structure PoolState where
  start : Nat
  size : Nat
  freeBlocks : List Nat
  usedMemory : Nat
  numAllocations : Nat
deriving DecidableEq

/-- PoolAllocator<T>::PoolAllocator (lines 215-228), with sizeofT = sizeof(T)
and alignofT = alignof(T). The constructor aligns the arena start, computes
numObjects = (size - adjustment) / sizeof(T) in size_t arithmetic, and threads
the slots at startAligned + i*sizeof(T) into the free list in ascending
address order (the loop makes slot i point at slot i+1). -/
def poolInit (sizeofT alignofT size mem : Nat) : Except AllocError PoolState := do
  let adjustment ← CalculateAlignForwardAdjustment mem alignofT
  let startAligned := (mem + adjustment) % W
  let numObjects := ((size + W - adjustment) % W) / sizeofT
  return { start := mem
           size := size
           freeBlocks := (List.range numObjects).map (fun i => (startAligned + i * sizeofT) % W)
           usedMemory := 0
           numAllocations := 0 }

/-- Iteration count of the threading loop in the constructor
(for i = 0; i < numObjects - 1; i++), computed in size_t arithmetic:
when numObjects = 0 this wraps to 2^64 - 1. -/
def poolCtorLoopCount (numObjects : Nat) : Nat := (numObjects + W - 1) % W

/-- Memory writes performed by the PoolAllocator constructor loop, as
(written address, stored next value) pairs: iteration i stores the address
of slot i+1 into the next field of slot i, and after the loop the final
statement stores nullptr (0) into the next field of the slot the cursor
ends on. Each write covers sizeofVoidPtr bytes. -/
def poolCtorWrites (startAligned sizeofT numObjects : Nat) : List (Nat × Nat) :=
  ((List.range (poolCtorLoopCount numObjects)).map
    (fun i => ((startAligned + i * sizeofT) % W, (startAligned + (i + 1) * sizeofT) % W)))
  ++ [((startAligned + poolCtorLoopCount numObjects * sizeofT) % W, 0)]

/-- PoolAllocator<T>::Allocate (lines 230-243): asserts the requested size
and alignment match sizeof(T) / alignof(T) (SizeMismatch), asserts the free
list is non-empty (OutOfMemory, "Pool Allocator is full"), then pops the
free-list head and bumps the counters in size_t arithmetic. -/
def poolAllocate (sizeofT alignofT : Nat) (s : PoolState) (allocatedSize alignment : Nat) :
    Except AllocError (Nat × PoolState) :=
  if ¬(allocatedSize = sizeofT ∧ alignment = alignofT) then .error .SizeMismatch
  else
    match s.freeBlocks with
    | [] => .error .OutOfMemory
    | p :: rest =>
        .ok (p, { s with freeBlocks := rest
                         usedMemory := (s.usedMemory + allocatedSize) % W
                         numAllocations := (s.numAllocations + 1) % W })

/-- PoolAllocator<T>::Deallocate (lines 245-253): pushes the block back as
the new free-list head and decrements the counters in size_t arithmetic. -/
def poolDeallocate (sizeofT : Nat) (s : PoolState) (p : Nat) : PoolState :=
  { s with freeBlocks := p :: s.freeBlocks
           usedMemory := (s.usedMemory + W - sizeofT) % W
           numAllocations := (s.numAllocations + W - 1) % W }

/-- Allocator::GetUsedMemory (lines 66-69) applied to a pool. -/
def poolGetUsedMemory (s : PoolState) : Nat := s.usedMemory

/-- Allocator::GetStart (lines 71-74) applied to a pool. -/
def poolGetStart (s : PoolState) : Nat := s.start

/-- Allocator::GetSize (lines 76-79) applied to a pool. -/
def poolGetSize (s : PoolState) : Nat := s.size

/-- A request made through the public interface of the pool. -/
inductive PoolOp where
  | alloc
  | free (p : Nat)
deriving DecidableEq

/-- Own state of a ProxyAllocator (lines 255-272): the base-class fields,
with start_ and size_ copied from the wrapped allocator at construction and
its own usedMemory_ / numAllocations_ counters. -/
structure ProxyState where
  start : Nat
  size : Nat
  usedMemory : Nat
  numAllocations : Nat
deriving DecidableEq

/-- ProxyAllocator::ProxyAllocator (lines 258-262): the base subobject is
constructed from allocator.GetSize() and allocator.GetStart(); the counters
keep their default value 0. -/
def proxyInit (wrapped : PoolState) : ProxyState :=
  { start := poolGetStart wrapped
    size := poolGetSize wrapped
    usedMemory := 0
    numAllocations := 0 }

/-- Modelled from the spec: ProxyAllocator::Allocate is only declared in
custom_allocator.h (line 266); its body lives in a source file that is not
part of src/. The specification says Allocate forwards verbatim to the
wrapped allocator, so the call is delegated to the wrapped pool and the
proxy state is left untouched. -/
def proxyAllocate (sizeofT alignofT : Nat) (pr : ProxyState) (wrapped : PoolState)
    (allocatedSize alignment : Nat) :
    Except AllocError (Nat × ProxyState × PoolState) := do
  let (p, w) ← poolAllocate sizeofT alignofT wrapped allocatedSize alignment
  return (p, pr, w)

/-- Modelled from the spec: ProxyAllocator::Deallocate is only declared in
custom_allocator.h (line 268); its body lives in a source file that is not
part of src/. The specification says Deallocate forwards verbatim to the
wrapped allocator. -/
def proxyDeallocate (sizeofT : Nat) (pr : ProxyState) (wrapped : PoolState) (p : Nat) :
    ProxyState × PoolState :=
  (pr, poolDeallocate sizeofT wrapped p)

/-- Allocator::GetUsedMemory (lines 66-69) applied to the proxy: it returns
the usedMemory_ field of the proxy itself. -/
def proxyGetUsedMemory (pr : ProxyState) : Nat := pr.usedMemory

/-- Allocator::GetStart applied to the proxy: its own start_ field. -/
def proxyGetStart (pr : ProxyState) : Nat := pr.start

/-- Allocator::GetSize applied to the proxy: its own size_ field. -/
def proxyGetSize (pr : ProxyState) : Nat := pr.size

/-- n successive Allocate(sizeof(T), alignof(T)) calls, collecting the
returned addresses; fails as soon as one call fails. -/
def iterAlloc (sizeofT alignofT : Nat) : Nat → PoolState → Except AllocError (List Nat × PoolState)
  | 0, s => .ok ([], s)
  | n + 1, s => do
    let (p, s1) ← poolAllocate sizeofT alignofT s sizeofT alignofT
    let (ps, s2) ← iterAlloc sizeofT alignofT n s1
    return (p :: ps, s2)

/-- Deallocate each pointer of the list in order. -/
def freeAll (sizeofT : Nat) (s : PoolState) (ps : List Nat) : PoolState :=
  ps.foldl (fun acc p => poolDeallocate sizeofT acc p) s

/-- Run a sequence of pool requests; Allocate is always called with the
matching size and alignment, and a failing call leaves the state unchanged
(a failing neko_assert never reaches the mutating statements). -/
def poolRun (sizeofT alignofT : Nat) (s : PoolState) : List PoolOp → PoolState
  | [] => s
  | PoolOp.alloc :: ops =>
      match poolAllocate sizeofT alignofT s sizeofT alignofT with
      | .ok (_, s1) => poolRun sizeofT alignofT s1 ops
      | .error _ => poolRun sizeofT alignofT s ops
  | PoolOp.free p :: ops => poolRun sizeofT alignofT (poolDeallocate sizeofT s p) ops

/-- A request sequence is valid when every Allocate succeeds and every
Deallocate hands back a pointer that is live at that moment: one of the
slots of the pool (a member of the slot universe) that is not currently on the
free list. -/
def validOps (slots : List Nat) (sizeofT alignofT : Nat) : PoolState → List PoolOp → Bool
  | _, [] => true
  | s, PoolOp.alloc :: ops =>
      match poolAllocate sizeofT alignofT s sizeofT alignofT with
      | .ok (_, s1) => validOps slots sizeofT alignofT s1 ops
      | .error _ => false
  | s, PoolOp.free p :: ops =>
      decide (p ∈ slots) && decide (p ∉ s.freeBlocks) &&
        validOps slots sizeofT alignofT (poolDeallocate sizeofT s p) ops

/-- Number of Allocate requests in a sequence. -/
def countAlloc (ops : List PoolOp) : Nat :=
  ops.countP (fun op => match op with | PoolOp.alloc => true | _ => false)

/-- Number of Deallocate requests in a sequence. -/
def countFree (ops : List PoolOp) : Nat :=
  ops.countP (fun op => match op with | PoolOp.free _ => true | _ => false)

/-- Reachable-state invariant of a pool whose slot universe is slots:
the free list holds pairwise-distinct slots, the live-allocation count and
the free-list length partition the slots, and usedMemory is the live count
times the element size. -/
structure PoolInv (slots : List Nat) (sizeofT : Nat) (s : PoolState) : Prop where
  nodup : s.freeBlocks.Nodup
  sub : ∀ p ∈ s.freeBlocks, p ∈ slots
  count : s.numAllocations + s.freeBlocks.length = slots.length
  used : s.usedMemory = s.numAllocations * sizeofT

deriving instance DecidableEq for Except

lemma W_pos : 0 < W := by decide

/-- The size_t expression alignment - 1 for a nonzero in-range alignment. -/
lemma sub_one_mod_W (a : Nat) (h1 : 1 ≤ a) (h2 : a < W) : (a + W - 1) % W = a - 1 := by
  have h : a + W - 1 = W + (a - 1) := by omega
  rw [h, Nat.add_mod_left, Nat.mod_eq_of_lt (by omega)]

/-- Closed form of CalculateAlignForwardAdjustment on a power-of-two
alignment: it succeeds and returns the distance to the next multiple. -/
lemma CAFA_pow2 (address k : Nat) (hk : 2 ^ k < W) :
    CalculateAlignForwardAdjustment address (2 ^ k) = .ok (alignAdj address (2 ^ k)) := by
  have hpos : 0 < 2 ^ k := Nat.pos_pow_of_pos k (by norm_num)
  have ham1 : (2 ^ k + W - 1) % W = 2 ^ k - 1 := sub_one_mod_W _ hpos hk
  have hmask : 2 ^ k &&& (2 ^ k - 1) = 0 := by
    rw [Nat.and_pow_two_sub_one_eq_mod, Nat.mod_self]
  have hr : address &&& (2 ^ k - 1) = address % 2 ^ k :=
    Nat.and_pow_two_sub_one_eq_mod address k
  have hrlt : address % 2 ^ k < 2 ^ k := Nat.mod_lt _ hpos
  have hadjval : (2 ^ k + W - address % 2 ^ k) % W = 2 ^ k - address % 2 ^ k := by
    have h : 2 ^ k + W - address % 2 ^ k = W + (2 ^ k - address % 2 ^ k) := by omega
    rw [h, Nat.add_mod_left, Nat.mod_eq_of_lt (by omega)]
  have halign : alignAdj address (2 ^ k) =
      if address % 2 ^ k = 0 then 0 else 2 ^ k - address % 2 ^ k := by
    unfold alignAdj
    by_cases h0 : address % 2 ^ k = 0
    · simp [h0]
    · rw [if_neg h0]
      exact Nat.mod_eq_of_lt (by omega)
  unfold CalculateAlignForwardAdjustment
  simp only [ham1, hmask, hr, hadjval, ne_eq, not_true_eq_false, if_false]
  by_cases h0 : address % 2 ^ k = 0
  · simp [halign, h0]
  · have hne : ¬(2 ^ k - address % 2 ^ k = 2 ^ k) := by omega
    simp [halign, h0, hne]

lemma alignAdj_lt (address k : Nat) : alignAdj address (2 ^ k) < 2 ^ k := by
  have hpos : 0 < 2 ^ k := Nat.pos_pow_of_pos k (by norm_num)
  exact Nat.mod_lt _ hpos

lemma alignAdj_makes_multiple (address k : Nat) :
    (address + alignAdj address (2 ^ k)) % 2 ^ k = 0 := by
  have hpos : 0 < 2 ^ k := Nat.pos_pow_of_pos k (by norm_num)
  have hrlt : address % 2 ^ k < 2 ^ k := Nat.mod_lt _ hpos
  have hdm := Nat.div_add_mod address (2 ^ k)
  by_cases h0 : address % 2 ^ k = 0
  · simp only [alignAdj, h0, Nat.sub_zero, Nat.mod_self, Nat.add_zero]
  · have hval : alignAdj address (2 ^ k) = 2 ^ k - address % 2 ^ k := by
      unfold alignAdj
      exact Nat.mod_eq_of_lt (by omega)
    have hsum : address + alignAdj address (2 ^ k) = 2 ^ k * (address / 2 ^ k) + 2 ^ k := by
      rw [hval]; omega
    rw [hsum, show 2 ^ k * (address / 2 ^ k) + 2 ^ k = 2 ^ k * (address / 2 ^ k + 1) by ring,
      Nat.mul_mod_right]


lemma alignAdj_minimal (address k d : Nat) (hd : (address + d) % 2 ^ k = 0) :
    alignAdj address (2 ^ k) ≤ d := by
  have hpos : 0 < 2 ^ k := Nat.pos_pow_of_pos k (by norm_num)
  have hrlt : address % 2 ^ k < 2 ^ k := Nat.mod_lt _ hpos
  by_cases h0 : address % 2 ^ k = 0
  · simp [alignAdj, h0]
  · have hval : alignAdj address (2 ^ k) = 2 ^ k - address % 2 ^ k := by
      unfold alignAdj
      exact Nat.mod_eq_of_lt (by omega)
    rw [hval]
    by_contra hlt
    push_neg at hlt
    have hdm := Nat.div_add_mod address (2 ^ k)
    have hsmall : address + d = 2 ^ k * (address / 2 ^ k) + (address % 2 ^ k + d) := by omega
    have hmod : (address + d) % 2 ^ k = address % 2 ^ k + d := by
      rw [hsmall, Nat.mul_add_mod]
      exact Nat.mod_eq_of_lt (by omega)
    omega

/-- Claim C1 (amended): for every 64-bit address and every power-of-two
alignment, CalculateAlignForwardAdjustment returns the smallest
non-negative offset making address + offset a multiple of the alignment
(0 when already aligned); and whenever address + offset does not overflow
64 bits, AlignForward returns address + offset, the smallest multiple of
the alignment that is at least address.  (The unamended claim fails when
the addition in AlignForward wraps, see the counterexample.) -/
theorem alignForwardAdjustment_isMinimalOffset (address k : Nat)
    (haddr : address < W) (hk : 2 ^ k < W) :
    CalculateAlignForwardAdjustment address (2 ^ k) = .ok (alignAdj address (2 ^ k)) ∧
    (address + alignAdj address (2 ^ k)) % 2 ^ k = 0 ∧
    (∀ d, (address + d) % 2 ^ k = 0 → alignAdj address (2 ^ k) ≤ d) ∧
    (address % 2 ^ k = 0 → alignAdj address (2 ^ k) = 0) ∧
    (address + alignAdj address (2 ^ k) < W →
      AlignForward address (2 ^ k) = .ok (address + alignAdj address (2 ^ k)) ∧
      ∀ m, m % 2 ^ k = 0 → address ≤ m → address + alignAdj address (2 ^ k) ≤ m) := by
  refine ⟨CAFA_pow2 address k hk, alignAdj_makes_multiple address k,
    fun d hd => alignAdj_minimal address k d hd, ?_, ?_⟩
  · intro h0
    simp [alignAdj, h0]
  · intro hnw
    constructor
    · unfold AlignForward
      rw [CAFA_pow2 address k hk]
      simp only [bind, Except.bind, pure, Except.pure]
      rw [Nat.mod_eq_of_lt hnw]
    · intro m hm hge
      have hd : (address + (m - address)) % 2 ^ k = 0 := by
        rw [Nat.add_sub_cancel' hge]
        exact hm
      have := alignAdj_minimal address k (m - address) hd
      omega

/-- Claim C1 counterexample: at address 2^64 - 8 with alignment 16 the
addition in AlignForward wraps modulo 2^64 and the returned address 0 is
not the smallest multiple of 16 greater than or equal to the address. -/
theorem alignForward_wraps_at_address_top :
    AlignForward (2 ^ 64 - 8) 16 = Except.ok 0 ∧ ¬(2 ^ 64 - 8 ≤ 0) :=
  ⟨by decide, by decide⟩

/-- Claim C1 witness: the amended theorem evaluated at address 5,
alignment 16. -/
theorem alignForwardAdjustment_isMinimalOffset_witness :
    CalculateAlignForwardAdjustment 5 (2 ^ 4) = Except.ok (alignAdj 5 (2 ^ 4)) ∧
    alignAdj 5 (2 ^ 4) = 11 :=
  ⟨(alignForwardAdjustment_isMinimalOffset 5 4 (by decide) (by decide)).1, by decide⟩

lemma testBit_true_of_between (a k : Nat) (h1 : 2 ^ k ≤ a) (h2 : a < 2 ^ (k + 1)) :
    a.testBit k = true := by
  have hdiv : a / 2 ^ k = 1 := by
    apply Nat.div_eq_of_lt_le
    · simpa using h1
    · have : (1 + 1) * 2 ^ k = 2 ^ (k + 1) := by ring
      omega
  rw [Nat.testBit_to_div_mod, hdiv]
  decide

/-- The bit test (a & (a - 1)) == 0 is falsified by every nonzero
non-power-of-two: the leading bit of a is also set in a - 1. -/
lemma and_pred_ne_zero_of_not_pow2 (a : Nat) (ha : a ≠ 0) (hnp : ¬ ∃ k, a = 2 ^ k) :
    a &&& (a - 1) ≠ 0 := by
  have h1 : 2 ^ a.log2 ≤ a := Nat.log2_self_le ha
  have h2 : a < 2 ^ (a.log2 + 1) := Nat.lt_log2_self
  have hne : a ≠ 2 ^ a.log2 := fun h => hnp ⟨a.log2, h⟩
  have hb1 : a.testBit a.log2 = true := testBit_true_of_between a a.log2 h1 h2
  have hb2 : (a - 1).testBit a.log2 = true :=
    testBit_true_of_between (a - 1) a.log2 (by omega) (by omega)
  intro h0
  have hbit := congrArg (fun x => x.testBit a.log2) h0
  simp only [Nat.testBit_and, hb1, hb2, Nat.zero_testBit, Bool.and_true] at hbit
  exact Bool.noConfusion hbit

/-- Claim C3 (amended): for every nonzero alignment that is not a power of
two, CalculateAlignForwardAdjustment fails with InvalidAlignment.  The
unamended claim fails at alignment 0, which is not a power of two yet
passes the bit test (0 & (0-1)) == 0 and gets an adjustment computed, see
the counterexample. -/
theorem alignment_not_pow2_rejected (address a : Nat) (ha0 : a ≠ 0) (haW : a < W)
    (hnp : ¬ ∃ k, a = 2 ^ k) :
    CalculateAlignForwardAdjustment address a = .error .InvalidAlignment := by
  have ham1 : (a + W - 1) % W = a - 1 := sub_one_mod_W a (by omega) haW
  have hand : a &&& (a - 1) ≠ 0 := and_pred_ne_zero_of_not_pow2 a ha0 hnp
  unfold CalculateAlignForwardAdjustment
  simp only [ham1, ne_eq]
  rw [if_pos hand]

/-- Claim C3 counterexample: alignment 0 is not a power of two, yet the
function does not fail: it returns the wrapped adjustment 2^64 - 5 for
address 5. -/
theorem alignment_zero_accepted :
    CalculateAlignForwardAdjustment 5 0 = Except.ok (2 ^ 64 - 5) ∧ ¬ ∃ k, (0 : Nat) = 2 ^ k :=
  ⟨by decide, fun ⟨k, hk⟩ => absurd hk.symm (Nat.pos_pow_of_pos k (by norm_num)).ne'⟩

lemma six_not_two_pow : ¬ ∃ k, (6 : Nat) = 2 ^ k := by
  rintro ⟨k, hk⟩
  have h3 : k < 3 := by
    by_contra h
    push_neg at h
    have : (2 : Nat) ^ 3 ≤ 2 ^ k := Nat.pow_le_pow_right (by norm_num) h
    omega
  interval_cases k <;> norm_num at hk

/-- Claim C3 witness: the amended theorem evaluated at address 3,
alignment 6. -/
theorem alignment_not_pow2_rejected_witness :
    CalculateAlignForwardAdjustment 3 6 = Except.error AllocError.InvalidAlignment :=
  alignment_not_pow2_rejected 3 6 (by decide) (by decide) six_not_two_pow

lemma AFWH_of_CAFAWH (address al hS v : Nat)
    (h : CalculateAlignForwardAdjustmentWithHeader address al hS = .ok v)
    (hlt : address + v < W) :
    AlignForwardWithHeader address al hS = .ok (address + v) := by
  unfold AlignForwardWithHeader
  rw [h]
  simp only [bind, Except.bind, pure, Except.pure]
  rw [Nat.mod_eq_of_lt hlt]

/-- Claim C2 (amended): for every 64-bit address, power-of-two alignment
and headerSize such that address + headerSize + alignment does not exceed
2^64 (so no size_t wrap occurs), the offset returned by
CalculateAlignForwardAdjustmentWithHeader is at least headerSize, the
payload address + offset is still a multiple of the alignment, and
AlignForwardWithHeader returns that payload address, leaving at least
headerSize bytes after the original address.  (The unamended claim fails
for header sizes close to 2^64, where the adjustment wraps, see the
counterexample.) -/
theorem alignWithHeader_reserves_header (address k headerSize : Nat)
    (haddr : address < W) (hk : 2 ^ k < W)
    (hbound : address + headerSize + 2 ^ k ≤ W) :
    ∃ adj, CalculateAlignForwardAdjustmentWithHeader address (2 ^ k) headerSize = .ok adj ∧
      headerSize ≤ adj ∧ (address + adj) % 2 ^ k = 0 ∧
      AlignForwardWithHeader address (2 ^ k) headerSize = .ok (address + adj) := by
  have hpos : 0 < 2 ^ k := Nat.pos_pow_of_pos k (by norm_num)
  have hrlt : alignAdj address (2 ^ k) < 2 ^ k := alignAdj_lt address k
  have hsW : headerSize < W := by omega
  have hmul0 : (address + alignAdj address (2 ^ k)) % 2 ^ k = 0 :=
    alignAdj_makes_multiple address k
  by_cases hcase : alignAdj address (2 ^ k) < headerSize
  · have hns_eq : (headerSize + W - alignAdj address (2 ^ k)) % W
        = headerSize - alignAdj address (2 ^ k) := by
      have h : headerSize + W - alignAdj address (2 ^ k)
          = W + (headerSize - alignAdj address (2 ^ k)) := by omega
      rw [h, Nat.add_mod_left, Nat.mod_eq_of_lt (by omega)]
    have hdm := Nat.div_add_mod (headerSize - alignAdj address (2 ^ k)) (2 ^ k)
    have hmod_lt : (headerSize - alignAdj address (2 ^ k)) % 2 ^ k < 2 ^ k :=
      Nat.mod_lt _ hpos
    have h1 : alignAdj address (2 ^ k)
        + 2 ^ k * ((headerSize - alignAdj address (2 ^ k)) / 2 ^ k) < W := by omega
    by_cases hrem : 0 < (headerSize - alignAdj address (2 ^ k)) % 2 ^ k
    · have hlt2 : alignAdj address (2 ^ k)
          + 2 ^ k * ((headerSize - alignAdj address (2 ^ k)) / 2 ^ k) + 2 ^ k < W := by omega
      have hCW : CalculateAlignForwardAdjustmentWithHeader address (2 ^ k) headerSize
          = .ok (alignAdj address (2 ^ k)
              + 2 ^ k * ((headerSize - alignAdj address (2 ^ k)) / 2 ^ k) + 2 ^ k) := by
        unfold CalculateAlignForwardAdjustmentWithHeader
        rw [CAFA_pow2 address k hk]
        simp only [bind, Except.bind]
        rw [if_pos hcase]
        simp only [hns_eq]
        rw [Nat.mod_eq_of_lt h1, if_pos hrem, Nat.mod_eq_of_lt hlt2]
        rfl
      refine ⟨_, hCW, by omega, ?_, ?_⟩
      · have h2 : address + (alignAdj address (2 ^ k)
            + 2 ^ k * ((headerSize - alignAdj address (2 ^ k)) / 2 ^ k) + 2 ^ k)
            = address + alignAdj address (2 ^ k)
              + 2 ^ k * ((headerSize - alignAdj address (2 ^ k)) / 2 ^ k + 1) := by ring
        rw [h2, Nat.add_mul_mod_self_left, hmul0]
      · exact AFWH_of_CAFAWH _ _ _ _ hCW (by omega)
    · have hCW : CalculateAlignForwardAdjustmentWithHeader address (2 ^ k) headerSize
          = .ok (alignAdj address (2 ^ k)
              + 2 ^ k * ((headerSize - alignAdj address (2 ^ k)) / 2 ^ k)) := by
        unfold CalculateAlignForwardAdjustmentWithHeader
        rw [CAFA_pow2 address k hk]
        simp only [bind, Except.bind]
        rw [if_pos hcase]
        simp only [hns_eq]
        rw [Nat.mod_eq_of_lt h1, if_neg hrem]
        rfl
      refine ⟨_, hCW, by omega, ?_, ?_⟩
      · rw [← Nat.add_assoc, Nat.add_mul_mod_self_left, hmul0]
      · exact AFWH_of_CAFAWH _ _ _ _ hCW (by omega)
  · have hCW : CalculateAlignForwardAdjustmentWithHeader address (2 ^ k) headerSize
        = .ok (alignAdj address (2 ^ k)) := by
      unfold CalculateAlignForwardAdjustmentWithHeader
      rw [CAFA_pow2 address k hk]
      simp only [bind, Except.bind]
      rw [if_neg hcase]
      rfl
    refine ⟨_, hCW, by omega, hmul0, ?_⟩
    exact AFWH_of_CAFAWH _ _ _ _ hCW (by omega)

/-- Claim C2 counterexample: at address 0, alignment 2 and
headerSize 2^64 - 1 the adjustment computation wraps modulo 2^64 and
returns 0, which reserves no room at all for the header. -/
theorem alignWithHeader_wraps_for_huge_header :
    CalculateAlignForwardAdjustmentWithHeader 0 2 (2 ^ 64 - 1) = Except.ok 0 ∧
      ¬(2 ^ 64 - 1 ≤ 0) :=
  ⟨by decide, by decide⟩

/-- Claim C2 witness: the amended theorem evaluated at address 5,
alignment 16, headerSize 12 (the rounded-up offset is 27 ≥ 12). -/
theorem alignWithHeader_reserves_header_witness :
    ∃ adj, CalculateAlignForwardAdjustmentWithHeader 5 (2 ^ 4) 12 = Except.ok adj ∧
      12 ≤ adj ∧ (5 + adj) % 2 ^ 4 = 0 ∧
      AlignForwardWithHeader 5 (2 ^ 4) 12 = Except.ok (5 + adj) :=
  alignWithHeader_reserves_header 5 4 12 (by decide) (by decide) (by decide)

lemma nodup_subset_length (l l2 : List Nat) (h : l.Nodup) (hs : ∀ p ∈ l, p ∈ l2) :
    l.length ≤ l2.length := by
  have h1 : l.toFinset.card = l.length := List.toFinset_card_of_nodup h
  have h2 : l.toFinset ⊆ l2.toFinset := by
    intro a ha
    simp only [List.mem_toFinset] at ha ⊢
    exact hs a ha
  have h3 : l2.toFinset.card ≤ l2.length := List.toFinset_card_le l2
  have h4 := Finset.card_le_card h2
  omega


/-- Closed form of the constructed pool state when the arena is in range,
the alignment adjustment fits and at least one slot fits: the free list is
the ascending sequence of slot addresses. -/
lemma poolInit_eq (sizeofT k size mem : Nat) (hT : 1 ≤ sizeofT)
    (hsize : size < W) (harena : mem + size ≤ W) (hk : 2 ^ k < W)
    (hadj : alignAdj mem (2 ^ k) ≤ size)
    (hN : 1 ≤ (size - alignAdj mem (2 ^ k)) / sizeofT) :
    poolInit sizeofT (2 ^ k) size mem = .ok
      { start := mem
        size := size
        freeBlocks := (List.range ((size - alignAdj mem (2 ^ k)) / sizeofT)).map
          (fun i => mem + alignAdj mem (2 ^ k) + i * sizeofT)
        usedMemory := 0
        numAllocations := 0 } := by
  have hfit : sizeofT ≤ size - alignAdj mem (2 ^ k) :=
    (Nat.one_le_div_iff (by omega)).mp hN
  have hstart : (mem + alignAdj mem (2 ^ k)) % W = mem + alignAdj mem (2 ^ k) :=
    Nat.mod_eq_of_lt (by omega)
  have hsub : (size + W - alignAdj mem (2 ^ k)) % W = size - alignAdj mem (2 ^ k) := by
    have h : size + W - alignAdj mem (2 ^ k) = W + (size - alignAdj mem (2 ^ k)) := by omega
    rw [h, Nat.add_mod_left, Nat.mod_eq_of_lt (by omega)]
  have hNT : (size - alignAdj mem (2 ^ k)) / sizeofT * sizeofT ≤ size - alignAdj mem (2 ^ k) :=
    Nat.div_mul_le_self _ _
  unfold poolInit
  rw [CAFA_pow2 mem k hk]
  simp only [bind, Except.bind, pure, Except.pure, hstart, hsub]
  congr 1
  apply PoolState.mk.injEq _ _ _ _ _ _ _ _ _ _ |>.mpr
  refine ⟨rfl, rfl, ?_, rfl, rfl⟩
  apply List.map_congr_left
  intro i hi
  have hilt : i < (size - alignAdj mem (2 ^ k)) / sizeofT := List.mem_range.mp hi
  have hmul : (i + 1) * sizeofT ≤ (size - alignAdj mem (2 ^ k)) / sizeofT * sizeofT :=
    Nat.mul_le_mul_right _ (by omega)
  have hiT : i * sizeofT + sizeofT ≤ size - alignAdj mem (2 ^ k) := by
    have h : (i + 1) * sizeofT = i * sizeofT + sizeofT := by ring
    omega
  exact Nat.mod_eq_of_lt (by omega)

lemma slots_pairwise (s0 sizeofT n : Nat) (hT : 1 ≤ sizeofT) :
    ((List.range n).map (fun i => s0 + i * sizeofT)).Pairwise (· < ·) := by
  refine List.Pairwise.map _ ?_ (List.pairwise_lt_range n)
  intro a b hab
  have h : (a + 1) * sizeofT ≤ b * sizeofT := Nat.mul_le_mul_right _ (by omega)
  have h2 : (a + 1) * sizeofT = a * sizeofT + sizeofT := by ring
  omega

lemma pairwise_lt_nodup (l : List Nat) (h : l.Pairwise (· < ·)) : l.Nodup :=
  h.imp Nat.ne_of_lt

lemma iterAlloc_spec (sizeofT alignofT : Nat) :
    ∀ (n : Nat) (s : PoolState), n ≤ s.freeBlocks.length →
    ∃ s1, iterAlloc sizeofT alignofT n s = .ok (s.freeBlocks.take n, s1) ∧
      s1.freeBlocks = s.freeBlocks.drop n ∧ s1.start = s.start ∧ s1.size = s.size := by
  intro n
  induction n with
  | zero =>
    intro s h
    exact ⟨s, rfl, rfl, rfl, rfl⟩
  | succ n ih =>
    intro s h
    match hfb : s.freeBlocks with
    | [] => rw [hfb] at h; simp at h
    | p :: rest =>
      set s2 : PoolState := { s with freeBlocks := rest, usedMemory := (s.usedMemory + sizeofT) % W, numAllocations := (s.numAllocations + 1) % W } with hs2
      have halloc : poolAllocate sizeofT alignofT s sizeofT alignofT = .ok (p, s2) := by
        unfold poolAllocate
        rw [if_neg (by simp), hfb]
      have hlen : n ≤ rest.length := by
        rw [hfb] at h
        simpa using h
      obtain ⟨s1, h1, h2, h3, h4⟩ := ih s2 hlen
      refine ⟨s1, ?_, ?_, h3, h4⟩
      · simp only [iterAlloc]
        rw [halloc]
        simp only [bind, Except.bind]
        rw [h1]
        simp only [List.take_succ_cons]
        rfl
      · rw [h2]
        simp only [List.drop_succ_cons]

lemma freeAll_spec (sizeofT : Nat) :
    ∀ (ps : List Nat) (s : PoolState),
    (freeAll sizeofT s ps).freeBlocks = ps.reverse ++ s.freeBlocks ∧
    (freeAll sizeofT s ps).start = s.start ∧ (freeAll sizeofT s ps).size = s.size := by
  intro ps
  induction ps with
  | nil =>
    intro s
    exact ⟨by simp [freeAll], rfl, rfl⟩
  | cons p ps ih =>
    intro s
    have h := ih (poolDeallocate sizeofT s p)
    simp only [freeAll, List.foldl_cons] at h ⊢
    refine ⟨?_, h.2.1, h.2.2⟩
    rw [h.1]
    simp [poolDeallocate]

/-- Claim C4: a pool constructed over an arena holding exactly N slots
serves N consecutive Allocate(sizeof(T), alignof(T)) calls, all succeeding
with pairwise-distinct slot addresses; the (N+1)th call fails with
OutOfMemory; and after handing back any subset of the live allocations, in
any order, re-allocating that count succeeds again. -/
theorem pool_exhaustion_and_recovery (sizeofT k size mem : Nat)
    (hT : sizeofVoidPtr ≤ sizeofT) (hsize : size < W) (harena : mem + size ≤ W)
    (hk : 2 ^ k < W) (hadj : alignAdj mem (2 ^ k) ≤ size)
    (hN : 1 ≤ (size - alignAdj mem (2 ^ k)) / sizeofT) :
    ∃ s0 ptrs s1,
      poolInit sizeofT (2 ^ k) size mem = .ok s0 ∧
      s0.freeBlocks.length = (size - alignAdj mem (2 ^ k)) / sizeofT ∧
      iterAlloc sizeofT (2 ^ k) ((size - alignAdj mem (2 ^ k)) / sizeofT) s0 = .ok (ptrs, s1) ∧
      ptrs.Nodup ∧ ptrs.length = (size - alignAdj mem (2 ^ k)) / sizeofT ∧
      poolAllocate sizeofT (2 ^ k) s1 sizeofT (2 ^ k) = .error .OutOfMemory ∧
      (∀ ps : List Nat, ps.Nodup → (∀ p ∈ ps, p ∈ ptrs) →
        ∃ ptrs2 s2,
          iterAlloc sizeofT (2 ^ k) ps.length (freeAll sizeofT s1 ps) = .ok (ptrs2, s2)) := by
  have hT1 : 1 ≤ sizeofT := by
    have : (8 : Nat) ≤ sizeofT := hT
    omega
  have hinit := poolInit_eq sizeofT k size mem hT1 hsize harena hk hadj hN
  set slots := (List.range ((size - alignAdj mem (2 ^ k)) / sizeofT)).map
    (fun i => mem + alignAdj mem (2 ^ k) + i * sizeofT) with hslots
  have hlen : slots.length = (size - alignAdj mem (2 ^ k)) / sizeofT := by
    rw [hslots, List.length_map, List.length_range]
  have hpw : slots.Pairwise (· < ·) := slots_pairwise _ _ _ hT1
  have hnd : slots.Nodup := pairwise_lt_nodup _ hpw
  set s0 : PoolState :=
    { start := mem, size := size, freeBlocks := slots
      usedMemory := 0, numAllocations := 0 } with hs0
  obtain ⟨s1, hiter, hfb1, _, _⟩ :=
    iterAlloc_spec sizeofT (2 ^ k) ((size - alignAdj mem (2 ^ k)) / sizeofT) s0 (by
      rw [hs0, hlen])
  have htake : s0.freeBlocks.take ((size - alignAdj mem (2 ^ k)) / sizeofT) = slots := by
    rw [hs0]
    rw [← hlen]
    exact List.take_length slots
  have hdrop : s1.freeBlocks = [] := by
    rw [hfb1, hs0]
    rw [← hlen]
    exact List.drop_length slots
  refine ⟨s0, slots, s1, hinit, by rw [hs0, hlen], by rw [← htake]; exact hiter,
    hnd, hlen, ?_, ?_⟩
  · unfold poolAllocate
    rw [if_neg (by simp), hdrop]
  · intro ps hpsnd hpsmem
    obtain ⟨hfb2, _, _⟩ := freeAll_spec sizeofT ps s1
    obtain ⟨s2, hiter2, _, _, _⟩ := iterAlloc_spec sizeofT (2 ^ k) ps.length
      (freeAll sizeofT s1 ps) (by
        rw [hfb2, hdrop]
        simp)
    exact ⟨_, s2, hiter2⟩

/-- Claim C4 witness: a 1024-byte arena at address 0 with 16-byte,
16-aligned elements: 64 allocations succeed, the 65th fails, and any
subset of live pointers can be freed and re-allocated. -/
theorem pool_exhaustion_and_recovery_witness :
    ∃ s0 ptrs s1,
      poolInit 16 (2 ^ 4) 1024 0 = .ok s0 ∧
      s0.freeBlocks.length = (1024 - alignAdj 0 (2 ^ 4)) / 16 ∧
      iterAlloc 16 (2 ^ 4) ((1024 - alignAdj 0 (2 ^ 4)) / 16) s0 = .ok (ptrs, s1) ∧
      ptrs.Nodup ∧ ptrs.length = (1024 - alignAdj 0 (2 ^ 4)) / 16 ∧
      poolAllocate 16 (2 ^ 4) s1 16 (2 ^ 4) = .error .OutOfMemory ∧
      (∀ ps : List Nat, ps.Nodup → (∀ p ∈ ps, p ∈ ptrs) →
        ∃ ptrs2 s2, iterAlloc 16 (2 ^ 4) ps.length (freeAll 16 s1 ps) = .ok (ptrs2, s2)) :=
  pool_exhaustion_and_recovery 16 4 1024 0 (by decide) (by decide) (by decide)
    (by decide) (by decide) (by decide)

/-- Claim C5: construction partitions the arena into exactly
floor((size - adjustment) / sizeof(T)) slots threaded into the free list
in ascending address order; the slot size must be at least the size of a
pointer (the static_assert of line 196, here the sizeofVoidPtr ≤ sizeofT
hypothesis). -/
theorem pool_partition (sizeofT k size mem : Nat)
    (hT : sizeofVoidPtr ≤ sizeofT) (hsize : size < W) (harena : mem + size ≤ W)
    (hk : 2 ^ k < W) (hadj : alignAdj mem (2 ^ k) ≤ size)
    (hN : 1 ≤ (size - alignAdj mem (2 ^ k)) / sizeofT) :
    ∃ s0, poolInit sizeofT (2 ^ k) size mem = .ok s0 ∧
      s0.freeBlocks = (List.range ((size - alignAdj mem (2 ^ k)) / sizeofT)).map
        (fun i => mem + alignAdj mem (2 ^ k) + i * sizeofT) ∧
      s0.freeBlocks.length = (size - alignAdj mem (2 ^ k)) / sizeofT ∧
      s0.freeBlocks.Pairwise (· < ·) := by
  have hT1 : 1 ≤ sizeofT := by
    have : (8 : Nat) ≤ sizeofT := hT
    omega
  refine ⟨_, poolInit_eq sizeofT k size mem hT1 hsize harena hk hadj hN, rfl, ?_, ?_⟩
  · rw [List.length_map, List.length_range]
  · exact slots_pairwise _ _ _ hT1

/-- Claim C5 witness: a 1024-byte arena of 16-byte elements with zero
alignment loss yields exactly 64 slots. -/
theorem pool_partition_witness :
    ∃ s0, poolInit 16 (2 ^ 4) 1024 0 = .ok s0 ∧ s0.freeBlocks.length = 64 := by
  obtain ⟨s0, h1, _, h3, _⟩ := pool_partition 16 4 1024 0 (by decide) (by decide)
    (by decide) (by decide) (by decide) (by decide)
  refine ⟨s0, h1, ?_⟩
  rw [h3]
  decide

/-- Claim C6: any Allocate call on a pool whose requested size or alignment
differs from the element shape of the pool fails with SizeMismatch (the failing
assert precedes every mutation, so the state is untouched). -/
theorem pool_size_mismatch (sizeofT alignofT : Nat) (s : PoolState) (sz al : Nat)
    (h : ¬(sz = sizeofT ∧ al = alignofT)) :
    poolAllocate sizeofT alignofT s sz al = .error .SizeMismatch := by
  unfold poolAllocate
  rw [if_pos h]

/-- Claim C6 witness: requesting 8 bytes from a pool of 16-byte elements
fails with SizeMismatch. -/
theorem pool_size_mismatch_witness :
    poolAllocate 16 16 ⟨0, 1024, [0, 16], 0, 0⟩ 8 16 = .error .SizeMismatch :=
  pool_size_mismatch 16 16 ⟨0, 1024, [0, 16], 0, 0⟩ 8 16 (by decide)

lemma poolAllocate_start_size (sizeofT alignofT : Nat) (s : PoolState) (sz al p : Nat)
    (s1 : PoolState) (h : poolAllocate sizeofT alignofT s sz al = .ok (p, s1)) :
    s1.start = s.start ∧ s1.size = s.size := by
  unfold poolAllocate at h
  by_cases hc : ¬(sz = sizeofT ∧ al = alignofT)
  · rw [if_pos hc] at h
    exact absurd h (by simp)
  · rw [if_neg hc] at h
    match hfb : s.freeBlocks with
    | [] =>
      rw [hfb] at h
      exact absurd h (by simp)
    | q :: rest =>
      rw [hfb] at h
      simp only [Except.ok.injEq, Prod.mk.injEq] at h
      rw [← h.2]
      exact ⟨rfl, rfl⟩

/-- Claim C7 (amended, modelled from the spec for the forwarding bodies):
a freshly constructed proxy mirrors the start and size of the wrapped allocator
(which pool operations never change), and the forwarded Allocate and
Deallocate mutate only the state of the wrapped allocator, leaving the own
fields of the proxy untouched; consequently GetUsedMemory on the proxy returns its
own counter, which stays at the initial 0 and does not mirror the used
memory of the wrapped allocator (see the counterexample). -/
theorem proxy_forwarding_transparency (sizeofT alignofT : Nat) (pr : ProxyState)
    (w : PoolState) (sz al : Nat) :
    (proxyGetStart (proxyInit w) = poolGetStart w ∧
      proxyGetSize (proxyInit w) = poolGetSize w ∧
      proxyGetUsedMemory (proxyInit w) = 0) ∧
    (∀ p pr1 w1, proxyAllocate sizeofT alignofT pr w sz al = .ok (p, pr1, w1) →
      pr1 = pr ∧ poolAllocate sizeofT alignofT w sz al = .ok (p, w1) ∧
      w1.start = w.start ∧ w1.size = w.size) ∧
    (∀ p, (proxyDeallocate sizeofT pr w p).1 = pr ∧
      (proxyDeallocate sizeofT pr w p).2 = poolDeallocate sizeofT w p ∧
      (poolDeallocate sizeofT w p).start = w.start ∧
      (poolDeallocate sizeofT w p).size = w.size) := by
  refine ⟨⟨rfl, rfl, rfl⟩, ?_, fun p => ⟨rfl, rfl, rfl, rfl⟩⟩
  intro p pr1 w1 h
  unfold proxyAllocate at h
  match hpa : poolAllocate sizeofT alignofT w sz al with
  | .error e =>
    rw [hpa] at h
    exact absurd h (by simp [bind, Except.bind])
  | .ok (q, w2) =>
    rw [hpa] at h
    simp only [bind, Except.bind, pure, Except.pure, Except.ok.injEq, Prod.mk.injEq] at h
    obtain ⟨hq, hpr, hw⟩ := h
    obtain ⟨hst, hsz2⟩ := poolAllocate_start_size sizeofT alignofT w sz al q w2 hpa
    subst hq hpr hw
    exact ⟨rfl, rfl, hst, hsz2⟩

/-- Claim C7 counterexample: a proxy over a fresh 64-slot pool forwards one
allocation; afterwards GetUsedMemory on the proxy (its own field, per
custom_allocator.h lines 66-69) is 0 while the used memory of the wrapped pool
is 16, so the proxy does not mirror the wrapped value at call time. -/
theorem proxy_usedMemory_not_mirrored :
    (do
      let s0 ← poolInit 16 16 1024 0
      let (_, pr1, w1) ← proxyAllocate 16 16 (proxyInit s0) s0 16 16
      return (proxyGetUsedMemory pr1, poolGetUsedMemory w1))
    = Except.ok ((0 : Nat), (16 : Nat)) ∧ (0 : Nat) ≠ (16 : Nat) :=
  ⟨by decide, by decide⟩

/-- Claim C7 witness: the amended theorem evaluated on a concrete pool. -/
theorem proxy_forwarding_transparency_witness :
    proxyGetStart (proxyInit ⟨0, 1024, [0, 16], 0, 0⟩) = poolGetStart ⟨0, 1024, [0, 16], 0, 0⟩ ∧
    proxyGetSize (proxyInit ⟨0, 1024, [0, 16], 0, 0⟩) = poolGetSize ⟨0, 1024, [0, 16], 0, 0⟩ ∧
    proxyGetUsedMemory (proxyInit ⟨0, 1024, [0, 16], 0, 0⟩) = 0 :=
  (proxy_forwarding_transparency 16 16 (proxyInit ⟨0, 1024, [0, 16], 0, 0⟩)
    ⟨0, 1024, [0, 16], 0, 0⟩ 16 16).1

/-- Claim C8: destroying an allocator succeeds exactly when both live
counters are zero, and otherwise fails with LeakAtTeardown. -/
theorem destructor_requires_empty (n u : Nat) :
    (destroyAllocator n u = .ok () ↔ n = 0 ∧ u = 0) ∧
    (¬(n = 0 ∧ u = 0) → destroyAllocator n u = .error .LeakAtTeardown) := by
  unfold destroyAllocator
  by_cases h : n = 0 ∧ u = 0
  · rw [if_pos h]
    exact ⟨⟨fun _ => h, fun _ => rfl⟩, fun hc => absurd h hc⟩
  · rw [if_neg h]
    refine ⟨⟨fun he => ?_, fun hc => absurd hc h⟩, fun _ => rfl⟩
    exact absurd he (by simp)

/-- Claim C8 witness: an allocator destroyed with 3 live allocations and
48 used bytes fails with LeakAtTeardown. -/
theorem destructor_requires_empty_witness :
    destroyAllocator 3 48 = .error .LeakAtTeardown :=
  (destructor_requires_empty 3 48).2 (by decide)

/-- Along any valid request sequence the pool invariant is preserved, and
the live-allocation counter moves by exactly the number of allocations
minus the number of deallocations. -/
lemma poolRun_inv (slots : List Nat) (sizeofT alignofT : Nat) (hT : 1 ≤ sizeofT)
    (hbound : slots.length * sizeofT < W) :
    ∀ (ops : List PoolOp) (s : PoolState), PoolInv slots sizeofT s →
      validOps slots sizeofT alignofT s ops = true →
      PoolInv slots sizeofT (poolRun sizeofT alignofT s ops) ∧
      (poolRun sizeofT alignofT s ops).numAllocations + countFree ops
        = s.numAllocations + countAlloc ops := by
  intro ops
  induction ops with
  | nil =>
    intro s hinv _
    exact ⟨hinv, by simp [poolRun, countFree, countAlloc]⟩
  | cons op ops ih =>
    intro s hinv hv
    have hslotsle : slots.length ≤ slots.length * sizeofT :=
      Nat.le_mul_of_pos_right _ (by omega)
    match op with
    | PoolOp.alloc =>
      match hfb : s.freeBlocks with
      | [] =>
        exfalso
        have herr : poolAllocate sizeofT alignofT s sizeofT alignofT
            = .error .OutOfMemory := by
          unfold poolAllocate
          rw [if_neg (by simp), hfb]
        rw [validOps, herr] at hv
        exact Bool.noConfusion hv
      | p :: rest =>
        set s1 : PoolState := { s with freeBlocks := rest, usedMemory := (s.usedMemory + sizeofT) % W, numAllocations := (s.numAllocations + 1) % W } with hs1
        have hall : poolAllocate sizeofT alignofT s sizeofT alignofT = .ok (p, s1) := by
          unfold poolAllocate
          rw [if_neg (by simp), hfb]
        have hv1 : validOps slots sizeofT alignofT s1 ops = true := by
          rw [validOps, hall] at hv
          exact hv
        obtain ⟨hnd, hsub, hcnt, hused⟩ := hinv
        rw [hfb] at hnd hcnt
        have hcons := List.nodup_cons.mp hnd
        have hlen1 : s.numAllocations + rest.length + 1 = slots.length := by
          simp only [List.length_cons] at hcnt
          omega
        have hnumlt : s.numAllocations + 1 ≤ slots.length := by omega
        have hnum1 : (s.numAllocations + 1) % W = s.numAllocations + 1 :=
          Nat.mod_eq_of_lt (by omega)
        have husd1 : (s.usedMemory + sizeofT) % W = (s.numAllocations + 1) * sizeofT := by
          rw [hused, show s.numAllocations * sizeofT + sizeofT
            = (s.numAllocations + 1) * sizeofT by ring]
          exact Nat.mod_eq_of_lt (lt_of_le_of_lt (Nat.mul_le_mul_right _ hnumlt) hbound)
        have hinv1 : PoolInv slots sizeofT s1 := by
          constructor
          · exact hcons.2
          · intro q hq
            exact hsub q (by rw [hfb]; exact List.mem_cons_of_mem _ hq)
          · show (s.numAllocations + 1) % W + rest.length = slots.length
            rw [hnum1]
            omega
          · show (s.usedMemory + sizeofT) % W = (s.numAllocations + 1) % W * sizeofT
            rw [hnum1, husd1]
        obtain ⟨hres, hcount⟩ := ih s1 hinv1 hv1
        have hrun : poolRun sizeofT alignofT s (PoolOp.alloc :: ops)
            = poolRun sizeofT alignofT s1 ops := by
          simp only [poolRun]
          rw [hall]
        refine ⟨by rw [hrun]; exact hres, ?_⟩
        rw [hrun]
        have hca : countAlloc (PoolOp.alloc :: ops) = countAlloc ops + 1 := by
          simp [countAlloc, List.countP_cons]
        have hcf : countFree (PoolOp.alloc :: ops) = countFree ops := by
          simp [countFree, List.countP_cons]
        have hs1num : s1.numAllocations = s.numAllocations + 1 := hnum1
        rw [hs1num] at hcount
        omega
    | PoolOp.free p =>
      simp only [validOps, Bool.and_eq_true, decide_eq_true_eq] at hv
      obtain ⟨⟨hmem, hnmem⟩, hv1⟩ := hv
      obtain ⟨hnd, hsub, hcnt, hused⟩ := hinv
      have hndc : (p :: s.freeBlocks).Nodup := List.nodup_cons.mpr ⟨hnmem, hnd⟩
      have hle : (p :: s.freeBlocks).length ≤ slots.length := by
        apply nodup_subset_length _ _ hndc
        intro q hq
        rcases List.mem_cons.mp hq with h | h
        · rw [h]
          exact hmem
        · exact hsub q h
      have hnum_ge : 1 ≤ s.numAllocations := by
        simp only [List.length_cons] at hle
        omega
      have hnum_lt : s.numAllocations < W := by
        have : s.numAllocations ≤ slots.length := by omega
        omega
      have hused_ge : sizeofT ≤ s.usedMemory := by
        rw [hused]
        exact Nat.le_mul_of_pos_left sizeofT (by omega)
      have hused_lt : s.usedMemory < W := by
        rw [hused]
        have h1 : s.numAllocations ≤ slots.length := by omega
        exact lt_of_le_of_lt (Nat.mul_le_mul_right _ h1) hbound
      have hnum1 : (poolDeallocate sizeofT s p).numAllocations = s.numAllocations - 1 := by
        show (s.numAllocations + W - 1) % W = _
        rw [show s.numAllocations + W - 1 = W + (s.numAllocations - 1) by omega,
          Nat.add_mod_left]
        exact Nat.mod_eq_of_lt (by omega)
      have hused1 : (poolDeallocate sizeofT s p).usedMemory = s.usedMemory - sizeofT := by
        show (s.usedMemory + W - sizeofT) % W = _
        rw [show s.usedMemory + W - sizeofT = W + (s.usedMemory - sizeofT) by omega,
          Nat.add_mod_left]
        exact Nat.mod_eq_of_lt (by omega)
      have hinv1 : PoolInv slots sizeofT (poolDeallocate sizeofT s p) := by
        constructor
        · exact hndc
        · intro q hq
          rcases List.mem_cons.mp hq with h | h
          · rw [h]
            exact hmem
          · exact hsub q h
        · show (poolDeallocate sizeofT s p).numAllocations
            + (p :: s.freeBlocks).length = slots.length
          rw [hnum1]
          simp only [List.length_cons]
          omega
        · rw [hnum1, hused1, hused, Nat.sub_one_mul]
      obtain ⟨hres, hcount⟩ := ih (poolDeallocate sizeofT s p) hinv1 hv1
      have hca : countAlloc (PoolOp.free p :: ops) = countAlloc ops := by
        simp [countAlloc, List.countP_cons]
      have hcf : countFree (PoolOp.free p :: ops) = countFree ops + 1 := by
        simp [countFree, List.countP_cons]
      refine ⟨hres, ?_⟩
      rw [hnum1] at hcount
      simp only [poolRun]
      omega

/-- Claim C9: for a freshly constructed pool both counters are zero; every
successful Allocate adds sizeof(T) to usedMemory and 1 to numAllocations,
every Deallocate subtracts the same amounts, and along any valid request
sequence (successful allocations, deallocations of live pointers)
usedMemory equals numAllocations * sizeof(T); a balanced sequence restores
both counters to zero. -/
theorem pool_counter_invariant (sizeofT k size mem : Nat)
    (hT : sizeofVoidPtr ≤ sizeofT) (hsize : size < W) (harena : mem + size ≤ W)
    (hk : 2 ^ k < W) (hadj : alignAdj mem (2 ^ k) ≤ size)
    (hN : 1 ≤ (size - alignAdj mem (2 ^ k)) / sizeofT) :
    ∃ s0, poolInit sizeofT (2 ^ k) size mem = .ok s0 ∧
      s0.usedMemory = 0 ∧ s0.numAllocations = 0 ∧
      (∀ ops, validOps s0.freeBlocks sizeofT (2 ^ k) s0 ops = true →
        (poolRun sizeofT (2 ^ k) s0 ops).usedMemory
          = (poolRun sizeofT (2 ^ k) s0 ops).numAllocations * sizeofT ∧
        (countAlloc ops = countFree ops →
          (poolRun sizeofT (2 ^ k) s0 ops).usedMemory = 0 ∧
          (poolRun sizeofT (2 ^ k) s0 ops).numAllocations = 0)) ∧
      (∀ (s : PoolState) (p : Nat) (s1 : PoolState),
        poolAllocate sizeofT (2 ^ k) s sizeofT (2 ^ k) = .ok (p, s1) →
        s.usedMemory + sizeofT < W → s.numAllocations + 1 < W →
        s1.usedMemory = s.usedMemory + sizeofT ∧
        s1.numAllocations = s.numAllocations + 1) ∧
      (∀ (s : PoolState) (p : Nat), sizeofT ≤ s.usedMemory → s.usedMemory < W →
        1 ≤ s.numAllocations → s.numAllocations < W →
        (poolDeallocate sizeofT s p).usedMemory = s.usedMemory - sizeofT ∧
        (poolDeallocate sizeofT s p).numAllocations = s.numAllocations - 1) := by
  have hT1 : 1 ≤ sizeofT := by
    have : (8 : Nat) ≤ sizeofT := hT
    omega
  refine ⟨_, poolInit_eq sizeofT k size mem hT1 hsize harena hk hadj hN, rfl, rfl,
    ?_, ?_, ?_⟩
  · intro ops hv
    set slots := (List.range ((size - alignAdj mem (2 ^ k)) / sizeofT)).map
      (fun i => mem + alignAdj mem (2 ^ k) + i * sizeofT) with hslots
    have hlen : slots.length = (size - alignAdj mem (2 ^ k)) / sizeofT := by
      rw [hslots, List.length_map, List.length_range]
    have hbound : slots.length * sizeofT < W := by
      rw [hlen]
      have h1 : (size - alignAdj mem (2 ^ k)) / sizeofT * sizeofT
          ≤ size - alignAdj mem (2 ^ k) := Nat.div_mul_le_self _ _
      omega
    have hinv0 : PoolInv slots sizeofT
        { start := mem, size := size, freeBlocks := slots, usedMemory := 0, numAllocations := 0 } :=
      ⟨pairwise_lt_nodup _ (slots_pairwise _ _ _ hT1), fun p hp => hp, by simp, by simp⟩
    obtain ⟨hres, hcount⟩ := poolRun_inv slots sizeofT (2 ^ k) hT1 hbound ops _ hinv0 hv
    refine ⟨hres.used, ?_⟩
    intro hbal
    have hzero : ({ start := mem, size := size, freeBlocks := slots, usedMemory := 0, numAllocations := 0 } : PoolState).numAllocations = 0 := rfl
    rw [hzero] at hcount
    have hnum0 : (poolRun sizeofT (2 ^ k)
        { start := mem, size := size, freeBlocks := slots, usedMemory := 0, numAllocations := 0 }
        ops).numAllocations = 0 := by omega
    rw [hres.used, hnum0]
    simp
  · intro s p s1 h hu hn
    unfold poolAllocate at h
    rw [if_neg (by simp)] at h
    match hfb : s.freeBlocks with
    | [] =>
      rw [hfb] at h
      exact absurd h (by simp)
    | q :: rest =>
      rw [hfb] at h
      simp only [Except.ok.injEq, Prod.mk.injEq] at h
      rw [← h.2]
      exact ⟨Nat.mod_eq_of_lt hu, Nat.mod_eq_of_lt hn⟩
  · intro s p hu1 hu2 hn1 hn2
    constructor
    · show (s.usedMemory + W - sizeofT) % W = _
      rw [show s.usedMemory + W - sizeofT = W + (s.usedMemory - sizeofT) by omega,
        Nat.add_mod_left]
      exact Nat.mod_eq_of_lt (by omega)
    · show (s.numAllocations + W - 1) % W = _
      rw [show s.numAllocations + W - 1 = W + (s.numAllocations - 1) by omega,
        Nat.add_mod_left]
      exact Nat.mod_eq_of_lt (by omega)

/-- Claim C9 witness: the counter invariant theorem applied to the
concrete 1024-byte, 16-byte-element pool; both counters start at zero. -/
theorem pool_counter_invariant_witness :
    ∃ s0, poolInit 16 (2 ^ 4) 1024 0 = .ok s0 ∧
      s0.usedMemory = 0 ∧ s0.numAllocations = 0 := by
  obtain ⟨s0, h1, h2, h3, _, _, _⟩ := pool_counter_invariant 16 4 1024 0 (by decide)
    (by decide) (by decide) (by decide) (by decide) (by decide)
  exact ⟨s0, h1, h2, h3⟩

/-- Claim C10: the threading loop of the constructor executes
numObjects - 1 iterations computed in size_t arithmetic; whenever at least
one slot fits (numObjects ≥ 1), every write of the loop and the final
null-terminating write stay inside the arena and the trace ends with the
next pointer of the last slot set to null; and the precondition is required:
with numObjects = 0 the loop count wraps to 2^64 - 1 and the trace
contains writes outside the arena (concrete instance: an 8-byte arena at
address 0 with 16-byte slots, where iteration 1 writes at address 16). -/
theorem pool_ctor_writes_safe :
    (∀ (sizeofT k size mem : Nat), sizeofVoidPtr ≤ sizeofT → size < W → mem + size ≤ W →
      2 ^ k < W → alignAdj mem (2 ^ k) ≤ size →
      1 ≤ (size - alignAdj mem (2 ^ k)) / sizeofT →
      poolCtorLoopCount ((size - alignAdj mem (2 ^ k)) / sizeofT)
        = (size - alignAdj mem (2 ^ k)) / sizeofT - 1 ∧
      (∀ wr ∈ poolCtorWrites (mem + alignAdj mem (2 ^ k)) sizeofT
          ((size - alignAdj mem (2 ^ k)) / sizeofT),
        mem ≤ wr.1 ∧ wr.1 + sizeofVoidPtr ≤ mem + size) ∧
      (poolCtorWrites (mem + alignAdj mem (2 ^ k)) sizeofT
          ((size - alignAdj mem (2 ^ k)) / sizeofT)).getLast?
        = some (mem + alignAdj mem (2 ^ k)
            + ((size - alignAdj mem (2 ^ k)) / sizeofT - 1) * sizeofT, 0)) ∧
    ((8 - alignAdj 0 (2 ^ 4)) / 16 = 0 ∧
      poolCtorLoopCount 0 = W - 1 ∧
      ((16 : Nat), (32 : Nat)) ∈ poolCtorWrites 0 16 0 ∧
      ¬((16 : Nat) + sizeofVoidPtr ≤ 0 + 8)) := by
  constructor
  · intro sizeofT k size mem hT hsize harena hk hadj hN
    have hT1 : 1 ≤ sizeofT := by
      have : (8 : Nat) ≤ sizeofT := hT
      omega
    have hNle : (size - alignAdj mem (2 ^ k)) / sizeofT ≤ size - alignAdj mem (2 ^ k) :=
      Nat.div_le_self _ _
    have hloop : poolCtorLoopCount ((size - alignAdj mem (2 ^ k)) / sizeofT)
        = (size - alignAdj mem (2 ^ k)) / sizeofT - 1 :=
      sub_one_mod_W _ hN (by omega)
    have hNT : (size - alignAdj mem (2 ^ k)) / sizeofT * sizeofT
        ≤ size - alignAdj mem (2 ^ k) := Nat.div_mul_le_self _ _
    have hkey : ∀ i, i ≤ (size - alignAdj mem (2 ^ k)) / sizeofT - 1 →
        (mem + alignAdj mem (2 ^ k) + i * sizeofT) % W
          = mem + alignAdj mem (2 ^ k) + i * sizeofT ∧
        mem + alignAdj mem (2 ^ k) + i * sizeofT + sizeofVoidPtr ≤ mem + size := by
      intro i hi
      have h1 : (i + 1) * sizeofT ≤ (size - alignAdj mem (2 ^ k)) / sizeofT * sizeofT :=
        Nat.mul_le_mul_right _ (by omega)
      have h2 : (i + 1) * sizeofT = i * sizeofT + sizeofT := by ring
      have hsvp : sizeofVoidPtr = 8 := rfl
      exact ⟨Nat.mod_eq_of_lt (by omega), by omega⟩
    refine ⟨hloop, ?_, ?_⟩
    · intro wr hwr
      unfold poolCtorWrites at hwr
      rw [hloop] at hwr
      rcases List.mem_append.mp hwr with hin | hin
      · obtain ⟨i, hi, heq⟩ := List.mem_map.mp hin
        have hilt : i < (size - alignAdj mem (2 ^ k)) / sizeofT - 1 := List.mem_range.mp hi
        obtain ⟨hm, hb⟩ := hkey i (by omega)
        rw [← heq]
        simp only [hm]
        exact ⟨by omega, hb⟩
      · rw [List.mem_singleton.mp hin]
        obtain ⟨hm, hb⟩ := hkey ((size - alignAdj mem (2 ^ k)) / sizeofT - 1) (le_refl _)
        simp only [hm]
        exact ⟨by omega, hb⟩
    · unfold poolCtorWrites
      rw [List.getLast?_concat, hloop, (hkey _ (le_refl _)).1]
  · refine ⟨by decide, by decide, ?_, by decide⟩
    exact List.mem_append_left _
      (List.mem_map.mpr ⟨1, List.mem_range.mpr (by decide), by decide⟩)

/-- Claim C10 witness: the loop-count equation of the safety theorem for
the 1024-byte, 16-byte-element pool (64 slots, 63 loop iterations). -/
theorem pool_ctor_writes_safe_witness :
    poolCtorLoopCount ((1024 - alignAdj 0 (2 ^ 4)) / 16)
      = (1024 - alignAdj 0 (2 ^ 4)) / 16 - 1 ∧
    (1024 - alignAdj 0 (2 ^ 4)) / 16 = 64 :=
  ⟨(pool_ctor_writes_safe.1 16 4 1024 0 (by decide) (by decide) (by decide) (by decide)
    (by decide) (by decide)).1, by decide⟩
